import Mathlib

/-!
# Verification of the mycroft-gui audio spectrum analysis pipeline

Shallow embedding of the C++ sources
`import/thirdparty/fft.cpp`, `import/thirdparty/fftcalc.cpp` (classes
`BufferProcessor` and `FFTCalc`, `SPECSIZE = 512`) and the spectrum consumer in
`import/mediaservice.cpp`, together with proofs about the embedded definitions.

Modelling conventions:

* C++ `double`/`float` scalars flowing through the shaping step are modelled by
  the type `FP` below: an IEEE-style value that is either NaN, +∞, -∞, or a
  finite value carried as an exact rational.  Rounding of finite arithmetic is
  abstracted away (finite operations are exact), while the special-value
  propagation rules of IEEE comparison, addition, multiplication and division
  are modelled faithfully, since the claims under study are about special-value
  propagation and clamping, which are insensitive to finite rounding.
* The windowing + radix-2 transform + complex magnitude composite
  (`fft(complexFrame)` followed by `std::abs`) produces irrational values; the
  shaping claims hold for *every* possible transformed frame, so the
  magnitudes entering the shaping step are universally quantified oracles
  (`cf`, `raw`, `cfO`, `rawO` below) rather than computed numerically.  The
  transform itself is embedded separately over exact complex numbers (`fft`,
  `ifft` below) for the round-trip law.
* The `logscale` table is built from `powf` and log-shaping uses `log10f`;
  both are transcendental.  The shaping definitions are therefore parametric
  in the table `L` and in a model `lg` of `log10f`, constrained only by
  properties (`TableOK`, `LogOK`) that the ideal real-valued table and
  logarithm provably satisfy (see `logscale`, `logscale_nonneg`,
  `logscale_lt`, `logscale_mono` below).
* C++ `int` is modelled as `ℤ` (no member under study approaches 2^31), C++
  integer division by `Int.tdiv` (truncation toward zero), division by zero —
  undefined behaviour in C++ — by an `Option` failure.
* The members `numberOfChunks`, `interval` and `pass` of `BufferProcessor`
  are never initialised by the constructor; the initial state therefore takes
  their (indeterminate) initial values as parameters.
-/

/-- An IEEE-754-style scalar: NaN, +∞, -∞ or a finite value (exact rational;
rounding abstracted). -/
inductive FP where
  | nan : FP
  | pinf : FP
  | ninf : FP
  | fin : ℚ → FP
deriving DecidableEq

namespace FP

/-- IEEE `<` comparison: any comparison with NaN is false. -/
def lt : FP → FP → Bool
  | nan, _ => false
  | _, nan => false
  | ninf, ninf => false
  | ninf, _ => true
  | _, ninf => false
  | pinf, _ => false
  | _, pinf => true
  | fin a, fin b => decide (a < b)

/-- IEEE `==` comparison: any comparison with NaN is false (so NaN compares
unequal to itself). -/
def feq : FP → FP → Bool
  | nan, _ => false
  | _, nan => false
  | pinf, pinf => true
  | ninf, ninf => true
  | pinf, _ => false
  | _, pinf => false
  | ninf, _ => false
  | _, ninf => false
  | fin a, fin b => decide (a = b)

/-- IEEE addition on the special-value skeleton; finite addition exact. -/
def add : FP → FP → FP
  | nan, _ => nan
  | _, nan => nan
  | pinf, ninf => nan
  | ninf, pinf => nan
  | pinf, _ => pinf
  | _, pinf => pinf
  | ninf, _ => ninf
  | _, ninf => ninf
  | fin a, fin b => fin (a + b)

/-- IEEE multiplication on the special-value skeleton (0 · ∞ = NaN); finite
multiplication exact. -/
def mul : FP → FP → FP
  | nan, _ => nan
  | _, nan => nan
  | pinf, pinf => pinf
  | pinf, ninf => ninf
  | ninf, pinf => ninf
  | ninf, ninf => pinf
  | pinf, fin q => if 0 < q then pinf else if q < 0 then ninf else nan
  | fin q, pinf => if 0 < q then pinf else if q < 0 then ninf else nan
  | ninf, fin q => if 0 < q then ninf else if q < 0 then pinf else nan
  | fin q, ninf => if 0 < q then ninf else if q < 0 then pinf else nan
  | fin a, fin b => fin (a * b)

/-- IEEE division on the special-value skeleton (∞/∞ = NaN, 0/0 = NaN,
x/0 = ±∞; the single model zero is treated as +0); finite division exact. -/
def div : FP → FP → FP
  | nan, _ => nan
  | _, nan => nan
  | pinf, pinf => nan
  | pinf, ninf => nan
  | ninf, pinf => nan
  | ninf, ninf => nan
  | pinf, fin q => if 0 ≤ q then pinf else ninf
  | ninf, fin q => if 0 ≤ q then ninf else pinf
  | fin _, pinf => fin 0
  | fin _, ninf => fin 0
  | fin a, fin b =>
      if b = 0 then (if a = 0 then nan else if 0 < a then pinf else ninf)
      else fin (a / b)

end FP

/-- Qt's `qMax(a, b) = (a < b) ? b : a`. -/
def qMaxFP (a b : FP) : FP := if FP.lt a b then b else a

/-- Qt's `qMin(a, b) = (a < b) ? a : b`. -/
def qMinFP (a b : FP) : FP := if FP.lt a b then a else b

/-- The `CLAMP(a, min, max)` macro of fftcalc.cpp:
`(a) < (min) ? (min) : (a) > (max) ? (max) : (a)` (note `a > max` is `max < a`
in IEEE comparison terms). -/
def clampFP (a lo hi : FP) : FP :=
  if FP.lt a lo then lo else if FP.lt hi a then hi else a

/-- Lines 98-102 of fftcalc.cpp, for one bin: from the transformed-frame
magnitude `m = std::abs(complexFrame[i])`,
`amplitude = 1e-2 * m; amplitude = qMax(0.0, amplitude);
amplitude = qMin(1.0, amplitude)`. -/
def clampAmp (m : FP) : FP :=
  qMinFP (FP.fin 1) (qMaxFP (FP.fin 0) (FP.mul (FP.fin (1 / 100)) m))

/-- The contents of `complexFrame` after the amplitude loop (lines 97-103):
indices in `[0, 256)` hold the clamped amplitude of the transformed-frame
magnitude `cf j`; the upper half keeps its raw post-transform real part,
modelled by the oracle `raw`. -/
def shapedFrame (cf raw : ℤ → FP) (j : ℤ) : FP :=
  if 0 ≤ j ∧ j < 256 then clampAmp (cf j) else raw j

/-- The bucket accumulation of lines 106-120 of fftcalc.cpp for output bucket
`i`, parametric in the `logscale` table `L` and reading the post-amplitude
frame `f`:
`a = ceilf(logscale[i]); b = floorf(logscale[i+1]); sum = 0;`
then either the narrow-bucket branch (`b < a`) or the three partial/full
contributions. -/
def bucketSum (L : ℕ → ℚ) (f : ℤ → FP) (i : ℕ) : FP :=
  let a : ℤ := ⌈L i⌉
  let b : ℤ := ⌊L (i + 1)⌋
  if b < a then
    FP.add (FP.fin 0) (FP.mul (f b) (FP.fin (L (i + 1) - L i)))
  else
    let s0 : FP :=
      if 0 < a then FP.add (FP.fin 0) (FP.mul (f (a - 1)) (FP.fin ((a : ℚ) - L i)))
      else FP.fin 0
    let s1 : FP :=
      ((List.range (b - a).toNat).map (fun (k : ℕ) => a + (k : ℤ))).foldl
        (fun s j => FP.add s (f j)) s0
    if b < 256 then FP.add s1 (FP.mul (f b) (FP.fin (L (i + 1) - (b : ℚ)))) else s1

/-- Lines 122-125 of fftcalc.cpp for output bucket `i`:
`sum *= (float) SPECSIZE / 24; val = 20 * log10f(sum); val = 1 + val / 40;
spectrum[i] = CLAMP(val, 0, 1)`, parametric in the model `lg` of `log10f`. -/
def bucketVal (L : ℕ → ℚ) (lg : FP → FP) (f : ℤ → FP) (i : ℕ) : FP :=
  let sum2 := FP.mul (bucketSum L f i) (FP.fin (512 / 24 : ℚ))
  let val := FP.add (FP.fin 1) (FP.div (FP.mul (FP.fin 20) (lg sum2)) (FP.fin 40))
  clampFP val (FP.fin 0) (FP.fin 1)

/-- The spectrum vector emitted by one processing pass of
`BufferProcessor::run` (lines 105-132): 256 entries, compressed
(log-bucket) shaping when `compressed` holds, otherwise the linear shaping
`spectrum[i] = CLAMP(complexFrame[i].real() * 100, 0, 1)`. -/
def shape (L : ℕ → ℚ) (lg : FP → FP) (cf raw : ℤ → FP) (compressed : Bool) :
    List FP :=
  if compressed then
    (List.range 256).map (fun i => bucketVal L lg (shapedFrame cf raw) i)
  else
    (List.range 256).map (fun (i : ℕ) =>
      clampFP (FP.mul (shapedFrame cf raw (i : ℤ)) (FP.fin 100)) (FP.fin 0) (FP.fin 1))

/-- Properties of the `logscale` table used by the shaping proofs: all
boundary values lie in `[0, 256)` and the table is nondecreasing.  The ideal
real-valued table `logscale` below provably satisfies the real-valued
counterparts of these bounds. -/
def TableOK (L : ℕ → ℚ) : Prop :=
  (∀ j : ℕ, j ≤ 256 → 0 ≤ L j ∧ L j < 256) ∧ ∀ j : ℕ, j < 256 → L j ≤ L (j + 1)

/-- Behaviour of `log10f` on the arguments that can occur (nonnegative finite
values): `log10f(+0) = -∞` and `log10f` of a positive value is finite. -/
def LogOK (lg : FP → FP) : Prop :=
  lg (FP.fin 0) = FP.ninf ∧ ∀ q : ℚ, 0 < q → ∃ r : ℚ, lg (FP.fin q) = FP.fin r

/-- State of a `BufferProcessor` (fftcalc.h): the stored sample buffer, the
`numberOfChunks`, `interval` and `pass` members, the `compressed` flag and the
member timer (active flag and period).  The unused `running` member is
omitted. -/
structure ProcState where
  array : List ℚ
  numberOfChunks : ℤ
  interval : ℤ
  pass : ℤ
  compressed : Bool
  timerActive : Bool
  timerInterval : ℤ
deriving DecidableEq

/-- State after the `BufferProcessor` constructor (lines 45-62): empty buffer,
`compressed = true`, timer started with period 100; `numberOfChunks`,
`interval` and `pass` are left uninitialised and appear as parameters. -/
def initState (nc iv p : ℤ) : ProcState :=
  { array := [], numberOfChunks := nc, interval := iv, pass := p,
    compressed := true, timerActive := true, timerInterval := 100 }

/-- The value `numberOfChunks` holds after the size check of
`BufferProcessor::processBuffer` (lines 70-73): recomputed as
`_array.size() / SPECSIZE` only when the stored size differs, otherwise kept. -/
def effNC (s : ProcState) (arr : List ℚ) : ℤ :=
  if s.array.length ≠ arr.length then ((arr.length / 512 : ℕ) : ℤ)
  else s.numberOfChunks

/-- `BufferProcessor::processBuffer` (lines 69-80).  Line 74 evaluates
`interval = duration / numberOfChunks` unconditionally; C++ integer division
by zero is undefined behaviour, modelled as `none`.  Otherwise the interval is
raised to at least 1, the buffer stored, `pass` reset and the timer restarted
with the new interval. -/
def processBuffer (s : ProcState) (arr : List ℚ) (duration : ℤ) :
    Option ProcState :=
  let nc := effNC s arr
  if nc = 0 then none
  else
    let iv0 := Int.tdiv duration nc
    let iv := if iv0 < 1 then 1 else iv0
    some { array := arr, numberOfChunks := nc, interval := iv, pass := 0,
           compressed := s.compressed, timerActive := true, timerInterval := iv }

/-- The buffer offsets `i + pass * SPECSIZE`, `i < SPECSIZE`, read by the
frame-extraction loop of `BufferProcessor::run` (lines 93-95). -/
def frameIndices (pass : ℤ) : List ℤ :=
  (List.range 512).map (fun (i : ℕ) => (i : ℤ) + pass * 512)

/-- Observable outcome of one timer tick of `BufferProcessor::run`: the
successor state, the spectrum emitted through `calculatedSpectrum` (if any),
whether `allDone` was emitted, and the buffer offsets read. -/
structure TickOut where
  state : ProcState
  emitted : Option (List FP)
  done : Bool
  reads : List ℤ

/-- `BufferProcessor::run` (lines 82-135).  If `pass == numberOfChunks` it
emits `allDone` and returns — without stopping the member timer.  If the
buffer is shorter than one window nothing happens.  Otherwise one frame is
extracted, transformed and shaped (the transformed frame magnitudes and raw
upper half are supplied by the per-pass oracles `cfO`, `rawO`), the spectrum
is emitted and `pass` incremented. -/
def tick (L : ℕ → ℚ) (lg : FP → FP) (cfO rawO : ℤ → ℤ → FP) (s : ProcState) :
    TickOut :=
  if s.pass = s.numberOfChunks then ⟨s, none, true, []⟩
  else if s.array.length < 512 then ⟨s, none, false, []⟩
  else
    ⟨{ s with pass := s.pass + 1 },
      some (shape L lg (cfO s.pass) (rawO s.pass) s.compressed),
      false, frameIndices s.pass⟩

/-- States of a `BufferProcessor` reachable from construction by completed
(`≠ none`) buffer submissions and timer ticks.  The tick oracles do not
affect the successor state, so they are quantified per step. -/
inductive Reach : ProcState → Prop
  | init (nc iv p : ℤ) : Reach (initState nc iv p)
  | submit {s s' : ProcState} (arr : List ℚ) (duration : ℤ) :
      Reach s → processBuffer s arr duration = some s' → Reach s'
  | step {s : ProcState} (L : ℕ → ℚ) (lg : FP → FP) (cfO rawO : ℤ → ℤ → FP) :
      Reach s → Reach (tick L lg cfO rawO s).state

/-- State of an `FFTCalc` (fftcalc.h / fftcalc.cpp): just the `isBusy` flag,
set to `false` by the constructor (line 23). -/
structure CalcState where
  isBusy : Bool
deriving DecidableEq

/-- State after the `FFTCalc` constructor. -/
def calcInit : CalcState := { isBusy := false }

/-- `FFTCalc::calc` (lines 31-34): queues `processBuffer` on the worker
thread; it does not touch `isBusy`. -/
def calcSubmit (s : CalcState) : CalcState := s

/-- `FFTCalc::freeCalc` (lines 40-43), invoked when `allDone` is received:
clears `isBusy`. -/
def freeCalc (s : CalcState) : CalcState := { s with isBusy := false }

/-- The decimation loop body of the `calculatedSpectrum` handler in
mediaservice.cpp (lines 39-48), collecting `spectrum[i]` for
`i = 0, step, 2*step, ...` while `i < spectrum.size()`.  Guarded on
`0 < step` for termination (with `step = 0` the C++ loop never terminates). -/
def decimateFrom (spectrum : List ℚ) (step i : ℕ) : List ℚ :=
  if 0 < step ∧ i < spectrum.length then
    spectrum.getD i 0 :: decimateFrom spectrum step (i + step)
  else []
termination_by spectrum.length - i
decreasing_by omega

/-- The `calculatedSpectrum` handler of mediaservice.cpp: display size 20,
step `spectrum.size() / (size - 1)`; `none` models the nonterminating loop
when the step is zero. -/
def mediaDecimate (spectrum : List ℚ) : Option (List ℚ) :=
  let step := spectrum.length / 19
  if step = 0 then none else some (decimateFrom spectrum step 0)

/-- `std::polar(1.0, θ) = cos θ + i sin θ = e^{iθ}` (fft.cpp line 23). -/
noncomputable def polarU (θ : ℝ) : ℂ := Complex.exp (θ * Complex.I)

/-- The recursive radix-2 transform of fft.cpp (lines 11-27), as a function on
lists of exact complex numbers: split into even- and odd-indexed
subsequences of `N/2` elements (`x[std::slice(0, N/2, 2)]`,
`x[std::slice(1, N/2, 2)]`), transform each, recombine with twiddle factors
`std::polar(1.0, -2πk/N)`. -/
noncomputable def fft (x : List ℂ) : List ℂ :=
  if x.length ≤ 1 then x
  else
    let N := x.length
    let ev := fft ((List.range (N / 2)).map fun k => x.getD (2 * k) 0)
    let od := fft ((List.range (N / 2)).map fun k => x.getD (2 * k + 1) 0)
    ((List.range (N / 2)).map fun k =>
        ev.getD k 0 + polarU (-2 * Real.pi * k / N) * od.getD k 0)
      ++ ((List.range (N / 2)).map fun k =>
        ev.getD k 0 - polarU (-2 * Real.pi * k / N) * od.getD k 0)
termination_by x.length
decreasing_by
  all_goals simp only [List.length_map, List.length_range]
  all_goals omega

/-- `ifft` of fft.cpp (lines 29-34): conjugate, forward transform, conjugate,
divide by the length. -/
noncomputable def ifft (x : List ℂ) : List ℂ :=
  ((fft (x.map (starRingEnd ℂ))).map (starRingEnd ℂ)).map
    (fun z => z / (x.length : ℂ))

/-- The discrete Fourier transform of a list:
`X_n = Σ_k x_k e^{-2πi n k / N}`; reference semantics for `fft`. -/
noncomputable def dft (x : List ℂ) : List ℂ :=
  (List.range x.length).map fun (n : ℕ) =>
    ∑ k ∈ Finset.range x.length,
      x.getD k 0 * polarU (-2 * Real.pi * (n * k) / x.length)

/-- The ideal-real-valued `logscale` table of the `BufferProcessor`
constructor (lines 57-59):
`logscale[i] = powf(SPECSIZE/2, (float) 2*i / SPECSIZE) - 0.5f`
with `SPECSIZE = 512`. -/
noncomputable def logscale (i : ℕ) : ℝ :=
  (256 : ℝ) ^ ((2 * (i : ℝ)) / 512) - 0.5

/-- `int a = ceilf(logscale[i])` (line 107). -/
noncomputable def aIdx (i : ℕ) : ℤ := ⌈logscale i⌉

/-- `int b = floorf(logscale[i+1])` (line 108). -/
noncomputable def bIdx (i : ℕ) : ℤ := ⌊logscale (i + 1)⌋

/-- The `complexFrame` indices read while accumulating bucket `i` of the
compressed shaping (lines 111-119): `b` in the `b < a` branch; otherwise
`a-1` when `a > 0`, every index in `[a, b)`, and `b` when `b < SPECSIZE/2`. -/
noncomputable def readIdx (i : ℕ) : List ℤ :=
  let a := aIdx i
  let b := bIdx i
  if b < a then [b]
  else
    (if 0 < a then [a - 1] else [])
      ++ (List.range (b - a).toNat).map (fun (k : ℕ) => a + (k : ℤ))
      ++ (if b < 256 then [b] else [])

/-- Concrete `logscale`-table stand-in used by witnesses: nondecreasing, in
`[0, 256)` on `[0, 256]`. -/
def cTable (j : ℕ) : ℚ := (j : ℚ) / 2

/-- Concrete `log10f` stand-in used by witnesses: NaN on negatives, -∞ at 0,
finite on positives, conforming to `LogOK`. -/
def cLog : FP → FP
  | FP.nan => FP.nan
  | FP.pinf => FP.pinf
  | FP.ninf => FP.nan
  | FP.fin q => if q < 0 then FP.nan else if q = 0 then FP.ninf else FP.fin 0

/-- Concrete transformed-frame oracle used by witnesses and counterexamples:
every magnitude reads 0. -/
def cOracle : ℤ → ℤ → FP := fun _ _ => FP.fin 0

/-- The state after submitting a 512-sample buffer with duration 1000 ms to a
fresh processor: one chunk, 1000 ms interval. -/
def cState1 : ProcState :=
  { array := List.replicate 512 0, numberOfChunks := 1, interval := 1000,
    pass := 0, compressed := true, timerActive := true, timerInterval := 1000 }

/-- A processor state with the linear (non-compressed) shaping mode selected,
holding one full window; used to witness emission claims. -/
def cStateLin : ProcState :=
  { array := List.replicate 512 0, numberOfChunks := 1, interval := 5,
    pass := 0, compressed := false, timerActive := true, timerInterval := 5 }

/-- A concrete 256-element spectrum used to witness the decimation claim. -/
def cSpec256 : List ℚ := (List.range 256).map (fun (n : ℕ) => (n : ℚ))

/-! ## Basic facts about the floating-point value domain and the clamps -/

theorem FP.add_fin (a b : ℚ) : FP.add (FP.fin a) (FP.fin b) = FP.fin (a + b) := rfl

theorem FP.mul_fin (a b : ℚ) : FP.mul (FP.fin a) (FP.fin b) = FP.fin (a * b) := rfl

theorem qMaxFP_fin (a b : ℚ) : qMaxFP (FP.fin a) (FP.fin b) = FP.fin (max a b) := by
  simp only [qMaxFP, FP.lt]
  by_cases h : a < b
  · simp [h, max_eq_right h.le]
  · simp [h, max_eq_left (not_lt.mp h)]

theorem qMinFP_fin (a b : ℚ) : qMinFP (FP.fin a) (FP.fin b) = FP.fin (min a b) := by
  simp only [qMinFP, FP.lt]
  by_cases h : a < b
  · simp [h, min_eq_left h.le]
  · simp [h, min_eq_right (not_lt.mp h)]

theorem clampAmp_fin (q : ℚ) :
    clampAmp (FP.fin q) = FP.fin (min 1 (max 0 (1 / 100 * q))) := by
  simp only [clampAmp, FP.mul_fin, qMaxFP_fin, qMinFP_fin]

theorem clampAmp_nan : clampAmp FP.nan = FP.fin 0 := by
  norm_num [clampAmp, FP.mul, qMaxFP, qMinFP, FP.lt]

theorem clampAmp_pinf : clampAmp FP.pinf = FP.fin 1 := by
  norm_num [clampAmp, FP.mul, qMaxFP, qMinFP, FP.lt]

theorem clampAmp_ninf : clampAmp FP.ninf = FP.fin 0 := by
  norm_num [clampAmp, FP.mul, qMaxFP, qMinFP, FP.lt]

/-- Whatever the transformed-frame magnitude is — finite, infinite or NaN —
the amplitude clamp of lines 98-102 yields a finite value in `[0, 1]`. -/
theorem clampAmp_mem (m : FP) :
    ∃ q : ℚ, clampAmp m = FP.fin q ∧ 0 ≤ q ∧ q ≤ 1 := by
  cases m with
  | nan => exact ⟨0, clampAmp_nan, by norm_num⟩
  | pinf => exact ⟨1, clampAmp_pinf, by norm_num⟩
  | ninf => exact ⟨0, clampAmp_ninf, by norm_num⟩
  | fin q =>
      refine ⟨min 1 (max 0 (1 / 100 * q)), clampAmp_fin q, ?_, min_le_left _ _⟩
      exact le_min (by norm_num) (le_max_left _ _)

theorem clampFP_fin_mem (v : ℚ) :
    ∃ q : ℚ, clampFP (FP.fin v) (FP.fin 0) (FP.fin 1) = FP.fin q ∧ 0 ≤ q ∧ q ≤ 1 := by
  simp only [clampFP, FP.lt, decide_eq_true_eq]
  by_cases h0 : v < 0
  · exact ⟨0, by simp [h0], le_refl 0, by norm_num⟩
  · by_cases h1 : 1 < v
    · exact ⟨1, by simp [h0, h1], by norm_num, le_refl 1⟩
    · exact ⟨v, by simp [h0, h1], not_lt.mp h0, not_lt.mp h1⟩

theorem clampFP_ninf : clampFP FP.ninf (FP.fin 0) (FP.fin 1) = FP.fin 0 := rfl

theorem shapedFrame_mem (cf raw : ℤ → FP) {j : ℤ} (h0 : 0 ≤ j) (h1 : j < 256) :
    ∃ q : ℚ, shapedFrame cf raw j = FP.fin q ∧ 0 ≤ q ∧ q ≤ 1 := by
  simp only [shapedFrame, if_pos (And.intro h0 h1)]
  exact clampAmp_mem (cf j)

theorem foldl_add_mem (f : ℤ → FP) (l : List ℤ)
    (hl : ∀ j ∈ l, ∃ q : ℚ, f j = FP.fin q ∧ 0 ≤ q) :
    ∀ qs : ℚ, 0 ≤ qs →
      ∃ q : ℚ, l.foldl (fun s j => FP.add s (f j)) (FP.fin qs) = FP.fin q ∧ 0 ≤ q := by
  induction l with
  | nil => exact fun qs hqs => ⟨qs, rfl, hqs⟩
  | cons a t ih =>
      intro qs hqs
      obtain ⟨qa, hqa, hqa0⟩ := hl a (by simp)
      have h1 : FP.add (FP.fin qs) (f a) = FP.fin (qs + qa) := by
        rw [hqa, FP.add_fin]
      rw [List.foldl_cons, h1]
      exact ih (fun j hj => hl j (by simp [hj])) (qs + qa) (by positivity)

theorem mem_offset_range (a b j : ℤ)
    (h : j ∈ (List.range (b - a).toNat).map (fun (k : ℕ) => a + (k : ℤ))) :
    a ≤ j ∧ j < a + ((b - a).toNat : ℤ) := by
  simp only [List.mem_map, List.mem_range] at h
  obtain ⟨k, hk, rfl⟩ := h
  have hk' : (k : ℤ) < ((b - a).toNat : ℤ) := by exact_mod_cast hk
  have hk0 : (0 : ℤ) ≤ (k : ℤ) := Int.natCast_nonneg k
  constructor
  · linarith
  · linarith

/-! ## The bucket accumulation produces a nonnegative finite sum -/

theorem bucketSum_mem (L : ℕ → ℚ) (f : ℤ → FP) (i : ℕ)
    (hT : TableOK L) (hi : i < 256)
    (hf : ∀ j : ℤ, 0 ≤ j → j < 256 → ∃ q : ℚ, f j = FP.fin q ∧ 0 ≤ q ∧ q ≤ 1) :
    ∃ q : ℚ, bucketSum L f i = FP.fin q ∧ 0 ≤ q := by
  obtain ⟨hLi0, hLi256⟩ := hT.1 i hi.le
  obtain ⟨hLj0, hLj256⟩ := hT.1 (i + 1) (by omega)
  have hmono : L i ≤ L (i + 1) := hT.2 i hi
  have ha0 : (0 : ℤ) ≤ ⌈L i⌉ := Int.ceil_nonneg hLi0
  have ha256 : ⌈L i⌉ ≤ 256 := Int.ceil_le.mpr (by push_cast; exact hLi256.le)
  have hb0 : (0 : ℤ) ≤ ⌊L (i + 1)⌋ := Int.floor_nonneg.mpr hLj0
  have hb256 : ⌊L (i + 1)⌋ < 256 := Int.floor_lt.mpr (by push_cast; exact hLj256)
  simp only [bucketSum]
  by_cases hba : ⌊L (i + 1)⌋ < ⌈L i⌉
  · rw [if_pos hba]
    obtain ⟨qb, hqb, hqb0, -⟩ := hf _ hb0 (by omega)
    rw [hqb, FP.mul_fin, FP.add_fin]
    refine ⟨0 + qb * (L (i + 1) - L i), rfl, ?_⟩
    simpa using mul_nonneg hqb0 (sub_nonneg.mpr hmono)
  · rw [if_neg hba]
    obtain ⟨qs0, hs0, hs00⟩ : ∃ qs : ℚ,
        (if 0 < ⌈L i⌉ then
           FP.add (FP.fin 0) (FP.mul (f (⌈L i⌉ - 1)) (FP.fin ((⌈L i⌉ : ℚ) - L i)))
         else FP.fin 0) = FP.fin qs ∧ 0 ≤ qs := by
      by_cases hapos : 0 < ⌈L i⌉
      · obtain ⟨qa, hqa, hqa0, -⟩ := hf (⌈L i⌉ - 1) (by omega) (by omega)
        rw [if_pos hapos, hqa, FP.mul_fin, FP.add_fin]
        refine ⟨0 + qa * ((⌈L i⌉ : ℚ) - L i), rfl, ?_⟩
        simpa using mul_nonneg hqa0 (sub_nonneg.mpr (Int.le_ceil (L i)))
      · exact ⟨0, by rw [if_neg hapos], le_refl 0⟩
    rw [hs0]
    obtain ⟨qm, hqm, hqm0⟩ := foldl_add_mem f
      ((List.range (⌊L (i + 1)⌋ - ⌈L i⌉).toNat).map (fun (k : ℕ) => ⌈L i⌉ + (k : ℤ)))
      (by
        intro j hj
        obtain ⟨hj1, hj2⟩ := mem_offset_range _ _ _ hj
        have hjb : j < ⌊L (i + 1)⌋ := by omega
        obtain ⟨qj, hqj, hqj0, -⟩ := hf j (by omega) (by omega)
        exact ⟨qj, hqj, hqj0⟩)
      qs0 hs00
    rw [hqm]
    by_cases hb' : ⌊L (i + 1)⌋ < 256
    · rw [if_pos hb']
      obtain ⟨qb, hqb, hqb0, -⟩ := hf _ hb0 (by omega)
      rw [hqb, FP.mul_fin, FP.add_fin]
      refine ⟨qm + qb * (L (i + 1) - (⌊L (i + 1)⌋ : ℚ)), rfl, ?_⟩
      have := mul_nonneg hqb0 (sub_nonneg.mpr (Int.floor_le (L (i + 1))))
      linarith
    · rw [if_neg hb']
      exact ⟨qm, rfl, hqm0⟩

/-! ## One shaped bucket lies in the unit interval -/

theorem bucketVal_mem (L : ℕ → ℚ) (lg : FP → FP) (f : ℤ → FP) (i : ℕ)
    (hT : TableOK L) (hlg : LogOK lg) (hi : i < 256)
    (hf : ∀ j : ℤ, 0 ≤ j → j < 256 → ∃ q : ℚ, f j = FP.fin q ∧ 0 ≤ q ∧ q ≤ 1) :
    ∃ q : ℚ, bucketVal L lg f i = FP.fin q ∧ 0 ≤ q ∧ q ≤ 1 := by
  obtain ⟨qs, hsum, hqs0⟩ := bucketSum_mem L f i hT hi hf
  simp only [bucketVal, hsum, FP.mul_fin]
  rcases lt_or_eq_of_le hqs0 with hpos | hzero
  · obtain ⟨r, hr⟩ := hlg.2 (qs * (512 / 24 : ℚ)) (by positivity)
    rw [hr, FP.mul_fin]
    have hdiv : FP.div (FP.fin (20 * r)) (FP.fin 40) = FP.fin (20 * r / 40) := by
      norm_num [FP.div]
    rw [hdiv, FP.add_fin]
    exact clampFP_fin_mem _
  · have hq0 : qs * (512 / 24 : ℚ) = 0 := by rw [← hzero]; ring
    rw [hq0, hlg.1]
    norm_num [FP.mul, FP.div, FP.add, clampFP_ninf]

/-! ## Every element of a shaped spectrum is finite and in the unit interval -/

theorem shape_mem (L : ℕ → ℚ) (lg : FP → FP) (cf raw : ℤ → FP) (mode : Bool)
    (hT : TableOK L) (hlg : LogOK lg) :
    ∀ x ∈ shape L lg cf raw mode, ∃ q : ℚ, x = FP.fin q ∧ 0 ≤ q ∧ q ≤ 1 := by
  intro x hx
  have hframe : ∀ j : ℤ, 0 ≤ j → j < 256 →
      ∃ q : ℚ, shapedFrame cf raw j = FP.fin q ∧ 0 ≤ q ∧ q ≤ 1 :=
    fun j h0 h1 => shapedFrame_mem cf raw h0 h1
  cases mode with
  | true =>
      unfold shape at hx
      rw [if_pos rfl] at hx
      obtain ⟨i, hi, rfl⟩ := List.mem_map.mp hx
      rw [List.mem_range] at hi
      exact bucketVal_mem L lg _ i hT hlg hi hframe
  | false =>
      unfold shape at hx
      rw [if_neg Bool.false_ne_true] at hx
      obtain ⟨i, hi, rfl⟩ := List.mem_map.mp hx
      rw [List.mem_range] at hi
      obtain ⟨q, hq, h0, h1⟩ := hframe (i : ℤ) (Int.natCast_nonneg i) (by exact_mod_cast hi)
      rw [hq, FP.mul_fin]
      exact clampFP_fin_mem _

/-! ## Scheduler state invariant -/

theorem reach_inv {s : ProcState} (hs : Reach s) :
    512 ≤ s.array.length →
      s.numberOfChunks = ((s.array.length / 512 : ℕ) : ℤ) ∧
        0 ≤ s.pass ∧ s.pass ≤ s.numberOfChunks := by
  induction hs with
  | init nc iv p =>
      intro h
      simp [initState] at h
  | @submit s s' arr dur hr hpb ih =>
      intro hlen
      simp only [processBuffer] at hpb
      split at hpb
      · exact absurd hpb (by simp)
      · rw [Option.some_inj] at hpb
        subst hpb
        simp only at hlen ⊢
        refine ⟨?_, le_refl 0, ?_⟩
        · unfold effNC
          split
          · rfl
          · rename_i hsz
            rw [not_ne_iff] at hsz
            have := (ih (by omega)).1
            rw [this, hsz]
        · unfold effNC
          split
          · positivity
          · rename_i hsz
            rw [not_ne_iff] at hsz
            have := (ih (by omega)).1
            rw [this]
            positivity
  | @step s L lg cfO rawO hr ih =>
      by_cases h1 : s.pass = s.numberOfChunks
      · simp only [tick, if_pos h1]
        exact ih
      · by_cases h2 : s.array.length < 512
        · simp only [tick, if_neg h1, if_pos h2]
          exact ih
        · intro hlen
          obtain ⟨hnc, hp0, hpn⟩ := ih (by omega)
          simp only [tick, if_neg h1, if_neg h2]
          exact ⟨hnc, by omega, by omega⟩

/-- A tick only emits a spectrum when `pass ≠ numberOfChunks` and the stored
buffer holds at least one full window; in that case the frame offsets read are
`frameIndices s.pass` and `pass` advances. -/
theorem tick_emits_inv (L : ℕ → ℚ) (lg : FP → FP) (cfO rawO : ℤ → ℤ → FP)
    (s : ProcState) (h : ((tick L lg cfO rawO s).emitted).isSome = true) :
    s.pass ≠ s.numberOfChunks ∧ 512 ≤ s.array.length ∧
      (tick L lg cfO rawO s).reads = frameIndices s.pass := by
  by_cases h1 : s.pass = s.numberOfChunks
  · simp [tick, h1] at h
  · by_cases h2 : s.array.length < 512
    · simp [tick, h1, h2] at h
    · exact ⟨h1, by omega, by simp [tick, h1, h2]⟩

/-- The frame offsets of a pass `p` with `0 ≤ p < ⌊len/512⌋` all lie inside
the buffer. -/
theorem frameIndices_bounds {p : ℤ} {len : ℕ} (hp0 : 0 ≤ p)
    (hplt : p < ((len / 512 : ℕ) : ℤ)) :
    ∀ j ∈ frameIndices p, 0 ≤ j ∧ j < (len : ℤ) := by
  intro j hj
  simp only [frameIndices, List.mem_map, List.mem_range] at hj
  obtain ⟨i, hi, rfl⟩ := hj
  have hdiv : ((len / 512 : ℕ) : ℤ) * 512 ≤ (len : ℤ) := by
    exact_mod_cast Nat.div_mul_le_self len 512
  have hi' : (i : ℤ) < 512 := by exact_mod_cast hi
  have hi0 : (0 : ℤ) ≤ (i : ℤ) := Int.natCast_nonneg i
  have hp1 : p ≤ ((len / 512 : ℕ) : ℤ) - 1 := by omega
  have hp512 : p * 512 ≤ (((len / 512 : ℕ) : ℤ) - 1) * 512 :=
    mul_le_mul_of_nonneg_right hp1 (by norm_num)
  constructor
  · have := mul_nonneg hp0 (by norm_num : (0 : ℤ) ≤ 512)
    linarith
  · nlinarith

/-! ## Bounds on the ideal logscale table -/

theorem logscale_lb (i : ℕ) : (1 / 2 : ℝ) ≤ logscale i := by
  unfold logscale
  have h : (256 : ℝ) ^ (0 : ℝ) ≤ (256 : ℝ) ^ ((2 * (i : ℝ)) / 512) :=
    Real.rpow_le_rpow_of_exponent_le (by norm_num) (by positivity)
  rw [Real.rpow_zero] at h
  norm_num
  linarith

theorem logscale_ub {i : ℕ} (hi : i ≤ 256) : logscale i ≤ (511 / 2 : ℝ) := by
  unfold logscale
  have he : ((2 * (i : ℝ)) / 512) ≤ 1 := by
    have : (i : ℝ) ≤ 256 := by exact_mod_cast hi
    linarith
  have h : (256 : ℝ) ^ ((2 * (i : ℝ)) / 512) ≤ (256 : ℝ) ^ (1 : ℝ) :=
    Real.rpow_le_rpow_of_exponent_le (by norm_num) he
  rw [Real.rpow_one] at h
  norm_num
  linarith

theorem logscale_mono {i j : ℕ} (hij : i ≤ j) : logscale i ≤ logscale j := by
  unfold logscale
  have h : ((2 * (i : ℝ)) / 512) ≤ ((2 * (j : ℝ)) / 512) := by
    have : (i : ℝ) ≤ (j : ℝ) := by exact_mod_cast hij
    linarith
  have := Real.rpow_le_rpow_of_exponent_le (by norm_num : (1 : ℝ) ≤ 256) h
  linarith

theorem aIdx_bounds {i : ℕ} (hi : i ≤ 256) : 1 ≤ aIdx i ∧ aIdx i ≤ 256 := by
  constructor
  · exact Int.ceil_pos.mpr (lt_of_lt_of_le (by norm_num) (logscale_lb i))
  · exact Int.ceil_le.mpr (by push_cast; linarith [logscale_ub hi])

theorem bIdx_bounds (i : ℕ) (hi : i + 1 ≤ 256) : 0 ≤ bIdx i ∧ bIdx i ≤ 255 := by
  unfold bIdx
  constructor
  · exact Int.floor_nonneg.mpr (le_trans (by norm_num) (logscale_lb (i + 1)))
  · have h := Int.floor_lt.mpr (show logscale (i + 1) < ((256 : ℤ) : ℝ) by
      push_cast; linarith [logscale_ub hi])
    omega

/-! ## Transform round trip: supporting lemmas -/

theorem getD_map_range {m k : ℕ} (f : ℕ → ℂ) (hk : k < m) :
    ((List.range m).map f).getD k 0 = f k := by
  rw [List.getD_eq_getElem?_getD, List.getElem?_map, List.getElem?_range hk]
  rfl

theorem getD_map_zero {f : ℂ → ℂ} (hf : f 0 = 0) (l : List ℂ) (n : ℕ) :
    (l.map f).getD n 0 = f (l.getD n 0) := by
  rcases lt_or_ge n l.length with h | h
  · rw [List.getD_eq_getElem?_getD, List.getElem?_map,
      List.getElem?_eq_getElem h, List.getD_eq_getElem?_getD,
      List.getElem?_eq_getElem h]
    rfl
  · rw [List.getD_eq_getElem?_getD, List.getElem?_map,
      List.getElem?_eq_none (by simpa using h), List.getD_eq_getElem?_getD,
      List.getElem?_eq_none h]
    simpa using hf.symm

theorem fft_length (x : List ℂ) :
    (fft x).length = if x.length ≤ 1 then x.length else 2 * (x.length / 2) := by
  rw [fft]
  split_ifs with h
  · rfl
  · simp only [List.length_append, List.length_map, List.length_range]
    omega

theorem fft_length_pow {K : ℕ} {x : List ℂ} (hx : x.length = 2 ^ K) :
    (fft x).length = x.length := by
  rw [fft_length, hx]
  rcases K with _ | K
  · norm_num
  · have h2 : (2 : ℕ) ^ (K + 1) = 2 ^ K * 2 := pow_succ 2 K
    have hpos : 1 ≤ (2 : ℕ) ^ K := Nat.one_le_two_pow
    rw [if_neg (by omega)]
    omega

theorem sum_range_even_odd (M : ℕ) (f : ℕ → ℂ) :
    ∑ k ∈ Finset.range (2 * M), f k
      = (∑ j ∈ Finset.range M, f (2 * j)) + ∑ j ∈ Finset.range M, f (2 * j + 1) := by
  induction M with
  | zero => simp
  | succ M ih =>
      have h2 : 2 * (M + 1) = (2 * M) + 1 + 1 := by ring
      rw [h2, Finset.sum_range_succ, Finset.sum_range_succ, ih,
        Finset.sum_range_succ, Finset.sum_range_succ]
      ring

theorem polarU_zero : polarU 0 = 1 := by
  simp [polarU]

theorem polarU_add (a b : ℝ) : polarU (a + b) = polarU a * polarU b := by
  rw [polarU, polarU, polarU, ← Complex.exp_add, Complex.ofReal_add, add_mul]

theorem polarU_nat_mul (θ : ℝ) (n : ℕ) : polarU (n * θ) = polarU θ ^ n := by
  rw [polarU, polarU,
    show ((n * θ : ℝ) : ℂ) * Complex.I = (n : ℂ) * (((θ : ℝ) : ℂ) * Complex.I) by
      push_cast; ring,
    Complex.exp_nat_mul]

theorem polarU_int_two_pi (d : ℤ) : polarU (d * (2 * Real.pi)) = 1 := by
  rw [polarU,
    show ((d * (2 * Real.pi) : ℝ) : ℂ) * Complex.I
        = (d : ℂ) * (2 * ((Real.pi : ℝ) : ℂ) * Complex.I) by push_cast; ring]
  exact Complex.exp_int_mul_two_pi_mul_I d

theorem polarU_conj (θ : ℝ) : (starRingEnd ℂ) (polarU θ) = polarU (-θ) := by
  rw [polarU, polarU, ← Complex.exp_conj]
  congr 1
  simp only [map_mul, Complex.conj_I, Complex.conj_ofReal]
  push_cast
  ring

theorem polarU_ne_one {d : ℤ} {N : ℕ} (hN : 0 < N) (hd : d ≠ 0)
    (hdN : d.natAbs < N) : polarU (2 * Real.pi * d / N) ≠ 1 := by
  intro h
  rw [polarU, Complex.exp_eq_one_iff] at h
  obtain ⟨n, hn⟩ := h
  have h2 : ((2 * Real.pi * d / N : ℝ) : ℂ) * Complex.I
      = ((n * (2 * Real.pi) : ℝ) : ℂ) * Complex.I := by
    rw [hn]; push_cast; ring
  have h3 := mul_right_cancel₀ Complex.I_ne_zero h2
  have h4 : (2 * Real.pi * d / N : ℝ) = n * (2 * Real.pi) :=
    Complex.ofReal_inj.mp h3
  have hN' : ((N : ℝ)) ≠ 0 := Nat.cast_ne_zero.mpr hN.ne'
  have hπ : Real.pi ≠ 0 := Real.pi_ne_zero
  have h5 : (d : ℝ) = n * N := by
    field_simp at h4
    nlinarith [Real.pi_pos]
  have h6 : d = n * N := by exact_mod_cast h5
  have hn0 : n ≠ 0 := by
    rintro rfl
    rw [h6] at hd
    simp at hd
  have habs : (N : ℤ) ≤ |d| := by
    rw [h6, abs_mul]
    have h1n : 1 ≤ |n| := Int.one_le_abs hn0
    have hNa : |(N : ℤ)| = (N : ℤ) := abs_of_nonneg (by positivity)
    nlinarith [abs_nonneg (N : ℤ)]
  have : |d| = (d.natAbs : ℤ) := Int.abs_eq_natAbs d
  omega

theorem dft_length (x : List ℂ) : (dft x).length = x.length := by
  simp [dft]

theorem dft_getD (x : List ℂ) {n : ℕ} (hn : n < x.length) :
    (dft x).getD n 0
      = ∑ k ∈ Finset.range x.length,
          x.getD k 0 * polarU (-2 * Real.pi * (n * k) / x.length) := by
  unfold dft
  rw [getD_map_range _ hn]

theorem polarU_pi : polarU Real.pi = -1 := Complex.exp_pi_mul_I

theorem polarU_eq_of_sub_int (a b : ℝ) (d : ℤ) (h : a = b + d * (2 * Real.pi)) :
    polarU a = polarU b := by
  rw [h, polarU_add, polarU_int_two_pi, mul_one]

theorem mul_polarU_factor (c : ℂ) (t b a : ℝ) (h : a = t + b) :
    c * polarU a = polarU t * (c * polarU b) := by
  rw [h, polarU_add]
  ring

theorem mul_polarU_factor_neg (c : ℂ) (t b a : ℝ) (d : ℤ)
    (h : a = t + b + Real.pi + d * (2 * Real.pi)) :
    c * polarU a = -(polarU t * (c * polarU b)) := by
  rw [h, show t + b + Real.pi + d * (2 * Real.pi)
      = (t + b) + (Real.pi + d * (2 * Real.pi)) by ring,
    polarU_add, polarU_add, polarU_add, polarU_int_two_pi, polarU_pi]
  ring

theorem fft_eq_dft : ∀ (K : ℕ) (x : List ℂ), x.length = 2 ^ K → fft x = dft x := by
  intro K
  induction K with
  | zero =>
      intro x hx
      obtain ⟨c, rfl⟩ := List.length_eq_one.mp (by simpa using hx)
      rw [fft]
      norm_num [dft, Finset.sum_range_one, polarU_zero]
  | succ K ih =>
      intro x hx
      have hMpos : 0 < 2 ^ K := Nat.pos_pow_of_pos K (by norm_num)
      have hMR : ((2 : ℝ) ^ K) ≠ 0 := by positivity
      have hxlen : x.length = 2 * 2 ^ K := by rw [hx]; ring
      have hx2 : ¬ x.length ≤ 1 := by omega
      have hhalf : x.length / 2 = 2 ^ K := by omega
      rw [fft, if_neg hx2]
      simp only []
      unfold dft
      rw [hhalf, hxlen]
      rw [ih (List.map (fun k => x.getD (2 * k) 0) (List.range (2 ^ K))) (by simp),
        ih (List.map (fun k => x.getD (2 * k + 1) 0) (List.range (2 ^ K))) (by simp)]
      rw [show List.range (2 * 2 ^ K)
            = List.range (2 ^ K) ++ List.map (fun j => 2 ^ K + j) (List.range (2 ^ K)) by
          rw [two_mul, List.range_add],
        List.map_append, List.map_map]
      congr 1
      · refine List.map_congr_left fun k hk => ?_
        rw [List.mem_range] at hk
        rw [dft_getD _ (by simpa using hk), dft_getD _ (by simpa using hk)]
        simp only [List.length_map, List.length_range]
        rw [sum_range_even_odd]
        congr 1
        · refine Finset.sum_congr rfl fun j hj => ?_
          rw [Finset.mem_range] at hj
          rw [getD_map_range _ hj]
          congr 2
          push_cast
          field_simp
          ring
        · rw [Finset.mul_sum]
          refine Finset.sum_congr rfl fun j hj => ?_
          rw [Finset.mem_range] at hj
          rw [getD_map_range _ hj]
          refine (mul_polarU_factor _ _ _ _ ?_).symm
          push_cast
          field_simp
          ring
      · refine List.map_congr_left fun k hk => ?_
        rw [List.mem_range] at hk
        simp only [Function.comp_apply]
        rw [dft_getD _ (by simpa using hk), dft_getD _ (by simpa using hk)]
        simp only [List.length_map, List.length_range]
        rw [sum_range_even_odd, sub_eq_add_neg]
        congr 1
        · refine Finset.sum_congr rfl fun j hj => ?_
          rw [Finset.mem_range] at hj
          rw [getD_map_range _ hj]
          congr 1
          exact polarU_eq_of_sub_int _ _ (j : ℤ) (by push_cast; field_simp; ring)
        · rw [Finset.mul_sum, ← Finset.sum_neg_distrib]
          refine Finset.sum_congr rfl fun j hj => ?_
          rw [Finset.mem_range] at hj
          rw [getD_map_range _ hj]
          exact (mul_polarU_factor_neg _ _ _ _ (-1 - (j : ℤ)) (by push_cast; field_simp; ring)).symm

theorem dft_inv_entry (N : ℕ) (y : List ℂ) (hy : y.length = N)
    (m : ℕ) (hm : m < N) :
    (starRingEnd ℂ) ((dft (y.map (starRingEnd ℂ))).getD m 0)
      = ∑ k ∈ Finset.range N,
          y.getD k 0 * polarU (2 * Real.pi * ((m : ℝ) * (k : ℝ)) / (N : ℝ)) := by
  rw [dft_getD (y.map (starRingEnd ℂ)) (by simpa [hy] using hm)]
  rw [List.length_map, hy]
  rw [map_sum]
  refine Finset.sum_congr rfl fun k _ => ?_
  rw [map_mul, getD_map_zero (map_zero (starRingEnd ℂ)) y k, Complex.conj_conj,
    polarU_conj]
  congr 1
  ring_nf

theorem polarU_geom_inner (N : ℕ) (hN : 0 < N) (m j : ℕ) (hm : m < N) (hj : j < N) :
    ∑ k ∈ Finset.range N, polarU ((k : ℝ) * (2 * Real.pi * ((m : ℝ) - (j : ℝ)) / N))
      = if j = m then (N : ℂ) else 0 := by
  by_cases hmj : j = m
  · subst hmj
    rw [if_pos rfl]
    rw [Finset.sum_congr rfl (fun k _ => by
      rw [show ((k : ℝ) * (2 * Real.pi * ((j : ℝ) - (j : ℝ)) / N)) = 0 by ring,
        polarU_zero])]
    simp
  · rw [if_neg hmj]
    have hd : ((m : ℤ) - (j : ℤ)) ≠ 0 := by omega
    have hdN : ((m : ℤ) - (j : ℤ)).natAbs < N := by omega
    have hz1 : polarU (2 * Real.pi * ((m : ℝ) - (j : ℝ)) / N) ≠ 1 := by
      have h := polarU_ne_one hN hd hdN
      convert h using 2
      push_cast
      ring
    calc ∑ k ∈ Finset.range N, polarU ((k : ℝ) * (2 * Real.pi * ((m : ℝ) - (j : ℝ)) / N))
        = ∑ k ∈ Finset.range N,
            (polarU (2 * Real.pi * ((m : ℝ) - (j : ℝ)) / N)) ^ k :=
          Finset.sum_congr rfl fun k _ => polarU_nat_mul _ k
      _ = ((polarU (2 * Real.pi * ((m : ℝ) - (j : ℝ)) / N)) ^ N - 1)
            / (polarU (2 * Real.pi * ((m : ℝ) - (j : ℝ)) / N) - 1) := geom_sum_eq hz1 N
      _ = 0 := by
          rw [← polarU_nat_mul,
            show (N : ℝ) * (2 * Real.pi * ((m : ℝ) - (j : ℝ)) / N)
                = ((m : ℤ) - (j : ℤ) : ℤ) * (2 * Real.pi) by
              push_cast
              field_simp
              ring,
            polarU_int_two_pi]
          simp

theorem dft_double_sum (N : ℕ) (hN : 0 < N) (x : List ℂ) (hx : x.length = N)
    (m : ℕ) (hm : m < N) :
    ∑ k ∈ Finset.range N,
        (dft x).getD k 0 * polarU (2 * Real.pi * ((m : ℝ) * (k : ℝ)) / (N : ℝ))
      = N * x.getD m 0 := by
  have h1 : ∀ k ∈ Finset.range N,
      (dft x).getD k 0 * polarU (2 * Real.pi * ((m : ℝ) * (k : ℝ)) / (N : ℝ))
        = ∑ j ∈ Finset.range N,
            x.getD j 0 * polarU ((k : ℝ) * (2 * Real.pi * ((m : ℝ) - (j : ℝ)) / N)) := by
    intro k hk
    rw [Finset.mem_range] at hk
    rw [dft_getD x (by omega), hx]
    rw [Finset.sum_mul]
    refine Finset.sum_congr rfl fun j _ => ?_
    rw [mul_assoc, ← polarU_add]
    congr 2
    field_simp
    ring
  rw [Finset.sum_congr rfl h1, Finset.sum_comm]
  have h2 : ∀ j ∈ Finset.range N,
      ∑ k ∈ Finset.range N,
          x.getD j 0 * polarU ((k : ℝ) * (2 * Real.pi * ((m : ℝ) - (j : ℝ)) / N))
        = if j = m then x.getD j 0 * N else 0 := by
    intro j hj
    rw [Finset.mem_range] at hj
    rw [← Finset.mul_sum, polarU_geom_inner N hN m j hm hj]
    rw [mul_ite, mul_zero]
  rw [Finset.sum_congr rfl h2, Finset.sum_ite_eq' (Finset.range N) m
    (fun j => x.getD j 0 * N), if_pos (Finset.mem_range.mpr hm)]
  ring

/-- C5: for every complex sequence whose length is a power of two, the inverse
transform of fft.cpp (conjugate, forward transform, conjugate, scale by 1/N)
recovers the input exactly over ideal complex arithmetic:
`ifft (fft x) = x` (the floating-point implementation realises this identity
up to rounding). -/
theorem c5_fft_roundtrip (K : ℕ) (x : List ℂ) (hx : x.length = 2 ^ K) :
    ifft (fft x) = x := by
  have hN : 0 < 2 ^ K := Nat.pos_pow_of_pos K (by norm_num)
  have hNC : ((2 ^ K : ℕ) : ℂ) ≠ 0 := Nat.cast_ne_zero.mpr hN.ne'
  unfold ifft
  rw [fft_eq_dft K x hx]
  rw [fft_eq_dft K ((dft x).map (starRingEnd ℂ)) (by simp [dft_length, hx])]
  apply List.ext_getElem
  · simp [dft_length, hx]
  · intro n h1 h2
    have hn : n < 2 ^ K := by rw [← hx]; exact h2
    rw [← List.getD_eq_getElem _ 0 h1, ← List.getD_eq_getElem _ 0 h2]
    rw [getD_map_zero (by simp) _ n]
    rw [getD_map_zero (map_zero (starRingEnd ℂ)) _ n]
    rw [dft_inv_entry (2 ^ K) (dft x) (by simp [dft_length, hx]) n hn]
    rw [dft_double_sum (2 ^ K) hN x hx n hn]
    rw [dft_length, hx]
    rw [mul_comm, mul_div_assoc, div_self hNC, mul_one]

/-! ## Concrete instances for witnesses -/

theorem cTable_ok : TableOK cTable := by
  constructor
  · intro j hj
    have hj' : (j : ℚ) ≤ 256 := by exact_mod_cast hj
    unfold cTable
    constructor
    · positivity
    · linarith
  · intro j _
    unfold cTable
    have : (j : ℚ) ≤ ((j + 1 : ℕ) : ℚ) := by push_cast; linarith
    linarith

theorem cLog_ok : LogOK cLog := by
  constructor
  · norm_num [cLog]
  · intro q hq
    exact ⟨0, by simp [cLog, not_lt.mpr hq.le, hq.ne']⟩

/-! ## Unfolding lemmas for the display decimation loop -/

theorem decimateFrom_step {s : List ℚ} {st i : ℕ} (h1 : 0 < st)
    (h2 : i < s.length) :
    decimateFrom s st i = s.getD i 0 :: decimateFrom s st (i + st) := by
  rw [decimateFrom, if_pos (And.intro h1 h2)]

theorem decimateFrom_stop {s : List ℚ} {st i : ℕ} (h : ¬(0 < st ∧ i < s.length)) :
    decimateFrom s st i = [] := by
  rw [decimateFrom, if_neg h]

/-! ## Claims -/

/-- C1: the spec claims a `numberOfChunks = 0` submission short-circuits the
interval computation; in the code `interval = duration / numberOfChunks`
(fftcalc.cpp line 74) is evaluated unconditionally, so submitting a buffer of
100 samples (fewer than `WINDOW_SIZE = 512`, length different from the stored
empty buffer) to a fresh processor recomputes `numberOfChunks = 0` and then
divides by zero — undefined behaviour, modelled as `none` — whatever the
uninitialised members held. -/
theorem c1_zero_chunk_div_by_zero :
    ∀ nc iv p : ℤ,
      processBuffer (initState nc iv p) (List.replicate 100 0) 1000 = none := by
  intro nc iv p
  rfl

set_option maxRecDepth 8192 in
/-- C2 counterexample: a one-chunk schedule (512 samples, duration 1000) is
driven to completion; the completion tick emits `allDone` but leaves the state
— including the still-active timer — unchanged, so the very next tick emits
`allDone` again: completion is not emitted exactly once and ticking does not
stop. -/
theorem c2_done_not_once :
    processBuffer (initState 5 7 3) (List.replicate 512 0) 1000 = some cState1
    ∧ (tick cTable cLog cOracle cOracle cState1).state = { cState1 with pass := 1 }
    ∧ (tick cTable cLog cOracle cOracle { cState1 with pass := 1 }).done = true
    ∧ (tick cTable cLog cOracle cOracle { cState1 with pass := 1 }).state
        = { cState1 with pass := 1 }
    ∧ (tick cTable cLog cOracle cOracle { cState1 with pass := 1 }).state.timerActive
        = true
    ∧ (tick cTable cLog cOracle cOracle
        (tick cTable cLog cOracle cOracle { cState1 with pass := 1 }).state).done
        = true := by
  refine ⟨rfl, rfl, rfl, rfl, rfl, rfl⟩

/-- C2 (amended): when a tick occurs with `pass == numberOfChunks` the
scheduler emits exactly one completion signal on that tick, processes no
frame, and leaves the state unchanged — in particular the timer is NOT
stopped, so each subsequent tick emits a further completion signal until a new
buffer is submitted; a finished schedule therefore produces at least one
completion event, not exactly one. -/
theorem c2_completion_tick (L : ℕ → ℚ) (lg : FP → FP) (cfO rawO : ℤ → ℤ → FP)
    (s : ProcState) (h : s.pass = s.numberOfChunks) :
    tick L lg cfO rawO s = ⟨s, none, true, []⟩ := by
  rw [tick, if_pos h]

theorem c2_completion_tick_witness :
    (initState 2 5 2).pass = (initState 2 5 2).numberOfChunks
    ∧ tick cTable cLog cOracle cOracle (initState 2 5 2)
        = ⟨initState 2 5 2, none, true, []⟩ :=
  ⟨rfl, c2_completion_tick cTable cLog cOracle cOracle (initState 2 5 2) rfl⟩

/-- C8 counterexample: `FFTCalc::calc` (the submit entry point) does not set
the busy flag — submitting from the constructed state leaves `isBusy` false,
contradicting "set on every submit call". -/
theorem c8_submit_not_busy : (calcSubmit calcInit).isBusy = false := rfl

/-- C8 (amended): the engine's `isBusy` flag is initialised to false by the
constructor and cleared again by `freeCalc` when the done event arrives, but
`calc` never modifies it — no operation ever sets it, so the flag is never
true. -/
theorem c8_busy_flag :
    calcInit.isBusy = false
    ∧ (∀ s : CalcState, calcSubmit s = s)
    ∧ ∀ s : CalcState, (freeCalc s).isBusy = false :=
  ⟨rfl, fun _ => rfl, fun _ => rfl⟩

/-- C3: in the shaping step a value that compares unequal to itself under the
IEEE comparison (NaN — the only such value) is forced to 0 by the amplitude
clamp before the bucket sums use it, and no NaN or Inf is ever propagated into
an emitted spectrum: every element of a shaped spectrum is a finite value.
Holds for every transformed frame (`cf`, `raw`), both shaping modes, and every
`logscale` table and `log10f` model satisfying the bounds the real ones
satisfy. -/
theorem c3_nan_guard (L : ℕ → ℚ) (lg : FP → FP) (cf raw : ℤ → FP) (mode : Bool)
    (hT : TableOK L) (hlg : LogOK lg) :
    (∀ m : FP, FP.feq m m = false → clampAmp m = FP.fin 0)
    ∧ ∀ x ∈ shape L lg cf raw mode, ∃ q : ℚ, x = FP.fin q := by
  constructor
  · intro m hm
    cases m with
    | nan => exact clampAmp_nan
    | pinf => simp [FP.feq] at hm
    | ninf => simp [FP.feq] at hm
    | fin q => simp [FP.feq] at hm
  · intro x hx
    obtain ⟨q, hq, -, -⟩ := shape_mem L lg cf raw mode hT hlg x hx
    exact ⟨q, hq⟩

theorem c3_nan_guard_witness :
    TableOK cTable ∧ LogOK cLog
    ∧ ((∀ m : FP, FP.feq m m = false → clampAmp m = FP.fin 0)
        ∧ ∀ x ∈ shape cTable cLog (cOracle 0) (cOracle 0) true,
            ∃ q : ℚ, x = FP.fin q) :=
  ⟨cTable_ok, cLog_ok,
    c3_nan_guard cTable cLog (cOracle 0) (cOracle 0) true cTable_ok cLog_ok⟩

/-- C4: every element of every spectrum emitted by a scheduler tick lies in
`[0, 1]` (and is finite), in both the compressed and the linear shaping mode,
for every stored buffer, every pass and every transformed-frame content. -/
theorem c4_spectrum_unit (L : ℕ → ℚ) (lg : FP → FP) (cfO rawO : ℤ → ℤ → FP)
    (s : ProcState) (spec : List FP) (hT : TableOK L) (hlg : LogOK lg)
    (hemit : (tick L lg cfO rawO s).emitted = some spec) :
    ∀ x ∈ spec, ∃ q : ℚ, x = FP.fin q ∧ 0 ≤ q ∧ q ≤ 1 := by
  by_cases h1 : s.pass = s.numberOfChunks
  · simp [tick, h1] at hemit
  · by_cases h2 : s.array.length < 512
    · simp [tick, h1, h2] at hemit
    · have hs : spec = shape L lg (cfO s.pass) (rawO s.pass) s.compressed := by
        simp [tick, h1, h2] at hemit
        exact hemit.symm
      subst hs
      exact shape_mem L lg (cfO s.pass) (rawO s.pass) s.compressed hT hlg

set_option maxRecDepth 8192 in
theorem c4_spectrum_unit_witness :
    TableOK cTable ∧ LogOK cLog
    ∧ (tick cTable cLog cOracle cOracle cStateLin).emitted
        = some (shape cTable cLog (cOracle 0) (cOracle 0) false)
    ∧ ∃ x ∈ shape cTable cLog (cOracle 0) (cOracle 0) false,
        ∃ q : ℚ, x = FP.fin q ∧ 0 ≤ q ∧ q ≤ 1 := by
  refine ⟨cTable_ok, cLog_ok, rfl, ?_⟩
  have hx : clampFP (FP.mul (shapedFrame (cOracle 0) (cOracle 0) ((0 : ℕ) : ℤ))
        (FP.fin 100)) (FP.fin 0) (FP.fin 1)
      ∈ shape cTable cLog (cOracle 0) (cOracle 0) false := by
    unfold shape
    rw [if_neg Bool.false_ne_true]
    exact List.mem_map.mpr ⟨0, List.mem_range.mpr (by norm_num), rfl⟩
  exact ⟨_, hx, c4_spectrum_unit cTable cLog cOracle cOracle cStateLin _
    cTable_ok cLog_ok rfl _ hx⟩

/-- C6 counterexample: submitting an empty buffer to a fresh processor whose
uninitialised `numberOfChunks` happened to hold 7 completes (the sizes match,
so `numberOfChunks` is not recomputed) and leaves `numberOfChunks = 7`, which
is not `floor(len(B)/WINDOW_SIZE) = 0` and violates
`numberOfChunks * WINDOW_SIZE <= len(B)`. -/
theorem c6_empty_submission_cex :
    processBuffer (initState 7 0 0) [] 5
        = some { array := [], numberOfChunks := 7, interval := 1, pass := 0,
                 compressed := true, timerActive := true, timerInterval := 1 }
    ∧ ¬((7 : ℤ) = ((([] : List ℚ).length / 512 : ℕ) : ℤ))
    ∧ ¬((7 : ℤ) * 512 ≤ ((([] : List ℚ).length : ℕ) : ℤ)) := by
  refine ⟨rfl, by decide, by decide⟩

/-- C6 (amended): in every reachable state holding at least one full window,
`numberOfChunks = floor(len(buffer)/WINDOW_SIZE)` — submissions recompute it
whenever the length changes, and keep the correct value when it does not —
hence `numberOfChunks * WINDOW_SIZE <= len(buffer)`; and whenever a tick
emits a spectrum the processed pass satisfies `0 <= pass < numberOfChunks`
and every read offset `i + pass*WINDOW_SIZE` lies inside the buffer, so a
trailing partial window is never processed.  (The unamended claim fails only
for a first submission of an empty buffer, which keeps the uninitialised
`numberOfChunks`.) -/
theorem c6_chunks_invariant {s : ProcState} (hs : Reach s) :
    (512 ≤ s.array.length →
      s.numberOfChunks = ((s.array.length / 512 : ℕ) : ℤ)
      ∧ s.numberOfChunks * 512 ≤ (s.array.length : ℤ))
    ∧ ∀ (L : ℕ → ℚ) (lg : FP → FP) (cfO rawO : ℤ → ℤ → FP),
        ((tick L lg cfO rawO s).emitted).isSome = true →
          0 ≤ s.pass ∧ s.pass < s.numberOfChunks
          ∧ ∀ j ∈ (tick L lg cfO rawO s).reads,
              0 ≤ j ∧ j < (s.array.length : ℤ) := by
  constructor
  · intro hlen
    obtain ⟨hnc, -, -⟩ := reach_inv hs hlen
    refine ⟨hnc, ?_⟩
    rw [hnc]
    exact_mod_cast Nat.div_mul_le_self s.array.length 512
  · intro L lg cfO rawO hem
    obtain ⟨hne, hlen, hreads⟩ := tick_emits_inv L lg cfO rawO s hem
    obtain ⟨hnc, hp0, hpn⟩ := reach_inv hs hlen
    have hplt : s.pass < s.numberOfChunks := lt_of_le_of_ne hpn hne
    refine ⟨hp0, hplt, ?_⟩
    rw [hreads]
    refine frameIndices_bounds hp0 ?_
    rw [← hnc]
    exact hplt

set_option maxRecDepth 8192 in
theorem c6_chunks_invariant_witness :
    Reach cState1
    ∧ ((512 ≤ cState1.array.length →
        cState1.numberOfChunks = ((cState1.array.length / 512 : ℕ) : ℤ)
        ∧ cState1.numberOfChunks * 512 ≤ (cState1.array.length : ℤ))
      ∧ ∀ (L : ℕ → ℚ) (lg : FP → FP) (cfO rawO : ℤ → ℤ → FP),
          ((tick L lg cfO rawO cState1).emitted).isSome = true →
            0 ≤ cState1.pass ∧ cState1.pass < cState1.numberOfChunks
            ∧ ∀ j ∈ (tick L lg cfO rawO cState1).reads,
                0 ≤ j ∧ j < (cState1.array.length : ℤ)) := by
  have hr : Reach cState1 :=
    Reach.submit (List.replicate 512 0) 1000 (Reach.init 5 7 3) rfl
  exact ⟨hr, c6_chunks_invariant hr⟩

/-- C7: for every submission whose effective `numberOfChunks` is at least 1
the submission completes, the stored interval equals
`max(1, duration / numberOfChunks)` with C integer (truncating) division, the
timer is restarted with exactly that period, and the interval is at least 1. -/
theorem c7_interval (s : ProcState) (arr : List ℚ) (dur : ℤ)
    (h : 1 ≤ effNC s arr) :
    ∃ s' : ProcState, processBuffer s arr dur = some s'
      ∧ s'.interval = max 1 (Int.tdiv dur (effNC s arr))
      ∧ s'.timerInterval = s'.interval
      ∧ s'.timerActive = true
      ∧ 1 ≤ s'.interval := by
  have hne : effNC s arr ≠ 0 := by omega
  unfold processBuffer
  rw [if_neg hne]
  refine ⟨_, rfl, ?_, rfl, rfl, ?_⟩
  · show (if Int.tdiv dur (effNC s arr) < 1 then 1 else Int.tdiv dur (effNC s arr))
        = max 1 (Int.tdiv dur (effNC s arr))
    rcases le_or_lt 1 (Int.tdiv dur (effNC s arr)) with h1 | h1
    · rw [if_neg (by omega), max_eq_right h1]
    · rw [if_pos h1, max_eq_left h1.le]
  · show 1 ≤ (if Int.tdiv dur (effNC s arr) < 1 then 1
        else Int.tdiv dur (effNC s arr))
    split
    · omega
    · omega

set_option maxRecDepth 8192 in
theorem c7_interval_witness :
    1 ≤ effNC (initState 0 0 0) (List.replicate 512 0)
    ∧ ∃ s' : ProcState,
        processBuffer (initState 0 0 0) (List.replicate 512 0) 1000 = some s'
        ∧ s'.interval
            = max 1 (Int.tdiv 1000 (effNC (initState 0 0 0) (List.replicate 512 0)))
        ∧ s'.timerInterval = s'.interval
        ∧ s'.timerActive = true
        ∧ 1 ≤ s'.interval :=
  ⟨by decide, c7_interval (initState 0 0 0) (List.replicate 512 0) 1000 (by decide)⟩

theorem c5_fft_roundtrip_witness :
    ([Complex.I] : List ℂ).length = 2 ^ 0
    ∧ ifft (fft [Complex.I]) = [Complex.I] :=
  ⟨by norm_num, c5_fft_roundtrip 0 [Complex.I] (by norm_num)⟩

/-- C9: the media-service consumer decimates a 256-element spectrum with step
`floor(256/19) = 13`, reading elements 0, 13, 26, ..., 247 — exactly 20
display values, each equal to the corresponding spectrum element. -/
theorem c9_decimate (spec : List ℚ) (h : spec.length = 256) :
    mediaDecimate spec
      = some [spec.getD 0 0, spec.getD 13 0, spec.getD 26 0, spec.getD 39 0,
          spec.getD 52 0, spec.getD 65 0, spec.getD 78 0, spec.getD 91 0,
          spec.getD 104 0, spec.getD 117 0, spec.getD 130 0, spec.getD 143 0,
          spec.getD 156 0, spec.getD 169 0, spec.getD 182 0, spec.getD 195 0,
          spec.getD 208 0, spec.getD 221 0, spec.getD 234 0, spec.getD 247 0]
      ∧ [spec.getD 0 0, spec.getD 13 0, spec.getD 26 0, spec.getD 39 0,
          spec.getD 52 0, spec.getD 65 0, spec.getD 78 0, spec.getD 91 0,
          spec.getD 104 0, spec.getD 117 0, spec.getD 130 0, spec.getD 143 0,
          spec.getD 156 0, spec.getD 169 0, spec.getD 182 0, spec.getD 195 0,
          spec.getD 208 0, spec.getD 221 0, spec.getD 234 0,
          spec.getD 247 0].length = 20 := by
  refine ⟨?_, by norm_num⟩
  unfold mediaDecimate
  rw [h]
  norm_num
  simp [decimateFrom, h]

theorem c9_decimate_witness :
    cSpec256.length = 256
    ∧ (mediaDecimate cSpec256
        = some [cSpec256.getD 0 0, cSpec256.getD 13 0, cSpec256.getD 26 0,
            cSpec256.getD 39 0, cSpec256.getD 52 0, cSpec256.getD 65 0,
            cSpec256.getD 78 0, cSpec256.getD 91 0, cSpec256.getD 104 0,
            cSpec256.getD 117 0, cSpec256.getD 130 0, cSpec256.getD 143 0,
            cSpec256.getD 156 0, cSpec256.getD 169 0, cSpec256.getD 182 0,
            cSpec256.getD 195 0, cSpec256.getD 208 0, cSpec256.getD 221 0,
            cSpec256.getD 234 0, cSpec256.getD 247 0]
      ∧ [cSpec256.getD 0 0, cSpec256.getD 13 0, cSpec256.getD 26 0,
          cSpec256.getD 39 0, cSpec256.getD 52 0, cSpec256.getD 65 0,
          cSpec256.getD 78 0, cSpec256.getD 91 0, cSpec256.getD 104 0,
          cSpec256.getD 117 0, cSpec256.getD 130 0, cSpec256.getD 143 0,
          cSpec256.getD 156 0, cSpec256.getD 169 0, cSpec256.getD 182 0,
          cSpec256.getD 195 0, cSpec256.getD 208 0, cSpec256.getD 221 0,
          cSpec256.getD 234 0, cSpec256.getD 247 0].length = 20) :=
  ⟨by simp [cSpec256], c9_decimate cSpec256 (by simp [cSpec256])⟩

/-- C10: for every bucket `i < 256` of the compressed shaping, with
`a = ceil(logscale[i])` and `b = floor(logscale[i+1])` over the ideal table
`logscale[i] = 256^(2i/512) - 0.5`, every `complexFrame` index read — `b` in
the `b < a` branch, `a-1` when `a > 0`, the range `[a, b)`, and `b` when
`b < 256` — lies in `[0, 256)`: no out-of-bounds access occurs and only the
entries previously overwritten with clamped amplitudes (exactly the indices
below 256) are read. -/
theorem c10_read_indices_in_range (i : ℕ) (hi : i < 256) :
    ∀ j ∈ readIdx i, 0 ≤ j ∧ j < 256 := by
  obtain ⟨ha1, ha256⟩ := aIdx_bounds hi.le
  obtain ⟨hb0, hb255⟩ := bIdx_bounds i (by omega)
  intro j hj
  unfold readIdx at hj
  by_cases hba : bIdx i < aIdx i
  · rw [if_pos hba] at hj
    simp only [List.mem_singleton] at hj
    omega
  · rw [if_neg hba] at hj
    simp only [List.mem_append] at hj
    rcases hj with (hj | hj) | hj
    · rw [if_pos (by omega : (0 : ℤ) < aIdx i)] at hj
      simp only [List.mem_singleton] at hj
      omega
    · obtain ⟨hj1, hj2⟩ := mem_offset_range (aIdx i) (bIdx i) j hj
      omega
    · rw [if_pos (by omega : bIdx i < 256)] at hj
      simp only [List.mem_singleton] at hj
      omega

theorem c10_read_indices_in_range_witness :
    0 < 256 ∧ ∀ j ∈ readIdx 0, 0 ≤ j ∧ j < 256 :=
  ⟨by norm_num, c10_read_indices_in_range 0 (by norm_num)⟩
